import Mathlib

/-!
# Scope-exit guard `defer` (src/api/defer.hpp)

A shallow embedding of the `defer` struct of `src/api/defer.hpp` and of the
part of the C++ object model its behaviour depends on (automatic objects are
destroyed at scope exit in reverse order of declaration, an exception that
leaves a `noexcept` function calls `std::terminate`).

The observable world is a pair: the user state `σ` that deferred actions read
and write, and an instrumentation trace `calls` with the name of every action
that has been invoked, oldest first.

Modelling assumptions:
* an action acts on the user state only; it does not itself create, move or
  destroy guards;
* copying or moving a callable into the guard has no observable effect and
  does not fail (no allocation failure);
* a scope left by an exception is unwound, i.e. a handler exists further out;
* the storage of a guard after its lifetime has ended is not modelled: on the
  flat machine a guard whose lifetime is over cannot be operated on.
-/

namespace XXC

/-! ## Exceptions and outcomes -/

/-- Exceptions that can be in flight. `bad_function_call` is what
`std::function::operator()` throws on an empty function object. -/
inductive Exn where
  | bad_function_call
  | user (code : Nat)
  deriving DecidableEq

/-- How a piece of code ends: it completes, it throws, or the program is
terminated (`std::terminate`). The payload is the state at that point. -/
inductive Outcome (α : Type) where
  | normal (a : α)
  | thrown (e : Exn) (a : α)
  | terminated (a : α)
  deriving DecidableEq

/-- State carried by an outcome. -/
def Outcome.val {α : Type} : Outcome α → α
  | .normal a => a
  | .thrown _ a => a
  | .terminated a => a

/-- Transport the state of an outcome, keeping the way it ended. -/
def Outcome.map {α β : Type} (f : α → β) : Outcome α → Outcome β
  | .normal a => .normal (f a)
  | .thrown e a => .thrown e (f a)
  | .terminated a => .terminated (f a)

/-- Semantics of the `noexcept` specifier: an exception that would leave the
function calls `std::terminate` instead. -/
def noexcept {α : Type} : Outcome α → Outcome α
  | .thrown _ a => .terminated a
  | o => o

/-! ## Actions, the world, `std::function<void(void)>` -/

/-- A zero-argument callable target. `name` identifies it in the call trace,
`body` is its effect on the user state. -/
structure Action (σ : Type) where
  name : Nat
  body : σ → Outcome σ

/-- Observable world: the trace of invoked actions and the user state. -/
structure World (σ : Type) where
  calls : List Nat
  st : σ
  deriving DecidableEq

/-- The typedef `defer::_Function_t`, i.e. `std::function<void(void)>`: either
empty or holding a target. -/
abbrev _Function_t (σ : Type) := Option (Action σ)

/-- The conversion `std::function::operator bool`: true iff a target is held. -/
def _Function_t.toBool {σ : Type} (f : _Function_t σ) : Bool := f.isSome

/-- The call `std::function::operator()`: throws `bad_function_call` when
empty, otherwise runs the target (recorded in the call trace). -/
def _Function_t.call {σ : Type} (f : _Function_t σ) (w : World σ) : Outcome (World σ) :=
  match f with
  | none => .thrown .bad_function_call w
  | some a => (a.body w.st).map (fun s => { calls := w.calls ++ [a.name], st := s })

/-- What a `defer` can be constructed from through the template constructor:
a closure object (always callable), a function pointer (possibly null) or
another `std::function` (possibly empty). -/
inductive Callable (σ : Type) where
  | lambda (a : Action σ)
  | pointer (p : Option (Action σ))
  | function (f : _Function_t σ)

/-- Construction of a `std::function` from a callable: a null function pointer
and an empty `std::function` give an empty function object. -/
def _Function_t.ofCallable {σ : Type} : Callable σ → _Function_t σ
  | .lambda a => some a
  | .pointer p => p
  | .function f => f

/-- Move construction of a `std::function`: the new object takes the target;
the moved-from object is left valid but unspecified, `residue` stands for
whatever the library leaves there. Returns (new object, moved-from object). -/
def _Function_t.move {σ : Type} (residue : _Function_t σ) (f : _Function_t σ) :
    _Function_t σ × _Function_t σ :=
  (f, residue)

/-! ## `struct defer` -/

/-- The struct `defer`: its only data member is `_function`. -/
structure defer (σ : Type) where
  _function : _Function_t σ

/-- Constructor `defer(Callable &&_function)`:
`_function(std::forward<Callable>(_function))` with an empty body. Returns the
new guard and the world, which it does not touch. -/
def defer.ctor {σ : Type} (c : Callable σ) (w : World σ) : defer σ × World σ :=
  ({ _function := _Function_t.ofCallable c }, w)

/-- Move constructor `defer(defer &&_Src)`: member initialiser
`_function(std::move(_Src._function))`, then body `_Src._function = nullptr`.
Returns (new guard, source afterwards, world). -/
def defer.moveCtor {σ : Type} (residue : _Function_t σ) (_Src : defer σ) (w : World σ) :
    defer σ × defer σ × World σ :=
  let p := _Function_t.move residue _Src._function
  let _Src1 : defer σ := { _Src with _function := p.2 }
  let _Src2 : defer σ := { _Src1 with _function := none }
  ({ _function := p.1 }, _Src2, w)

/-- Destructor `~defer() noexcept`:
`if (this->_function) { this->_function(); }`. The outcome carries the world
and the guard at the end of the destructor's body, that is at the point where
the implicit destruction of the member `_function` begins. After that the
object no longer exists: the guard component is not an object on which the
destructor could run again. -/
def defer.dtor {σ : Type} (self : defer σ) (w : World σ) : Outcome (defer σ × World σ) :=
  noexcept
    (if self._function.toBool then (self._function.call w).map (fun w1 => (self, w1))
     else .normal (self, w))

/-! ## Block scopes

The C++ rules the guard relies on: automatic objects are destroyed when
control leaves their block, in reverse order of declaration, whichever way the
block is left. A thrown exception is assumed to have a handler further out, so
that the stack is unwound. -/

/-- How control leaves a statement: on to the next statement, by `return`, or
by a thrown exception. -/
inductive Flow where
  | next
  | ret
  | throw (e : Exn)
  deriving DecidableEq

/-- Statements of a block: `defer g(c);`, `defer g(std::move(g_src));` where
`src` is the declaration index of the source guard in this block, and any
other statement, given by its effect on the user state. -/
inductive Stmt (σ : Type) where
  | declare (c : Callable σ)
  | declareMove (src : Nat) (residue : _Function_t σ)
  | code (f : σ → Flow × σ)

/-- How a block ends: control leaves it in the given way, or the program was
terminated. -/
inductive ScopeResult (σ : Type) where
  | exited (how : Flow) (w : World σ)
  | terminated (w : World σ)
  deriving DecidableEq

/-- World at the end of a block. -/
def ScopeResult.world {σ : Type} : ScopeResult σ → World σ
  | .exited _ w => w
  | .terminated w => w

/-- Runs the statements of a block until one leaves it or the end is reached.
`gs` are the guards declared so far, in declaration order. `none` when a
statement names a guard that is not declared. -/
def execStmts {σ : Type} :
    List (Stmt σ) → List (defer σ) → World σ → Option (Flow × List (defer σ) × World σ)
  | [], gs, w => some (.next, gs, w)
  | .declare c :: rest, gs, w =>
      let r := defer.ctor c w
      execStmts rest (gs ++ [r.1]) r.2
  | .declareMove src residue :: rest, gs, w =>
      match gs[src]? with
      | none => none
      | some g =>
          let r := defer.moveCtor residue g w
          execStmts rest (gs.set src r.2.1 ++ [r.1]) r.2.2
  | .code f :: rest, gs, w =>
      match f w.st with
      | (.next, s) => execStmts rest gs { w with st := s }
      | (how, s) => some (how, gs, { w with st := s })

/-- Destroys the guards in the order given, while control leaves the block in
the way `how`. A destructor that throws replaces a normal exit by an
exceptional one and terminates the program if an exception is already in
flight. -/
def unwind {σ : Type} : List (defer σ) → Flow → World σ → ScopeResult σ
  | [], how, w => .exited how w
  | g :: gs, how, w =>
      match g.dtor w with
      | .normal r => unwind gs how r.2
      | .thrown e r =>
          match how with
          | .throw _ => .terminated r.2
          | _ => unwind gs (.throw e) r.2
      | .terminated r => .terminated r.2

/-- A whole block: run the statements, then destroy the declared guards in
reverse order of declaration. -/
def runScope {σ : Type} (stmts : List (Stmt σ)) (w : World σ) : Option (ScopeResult σ) :=
  match execStmts stmts [] w with
  | none => none
  | some (how, gs, w1) => some (unwind gs.reverse how w1)

/-- Sequencing of ordinary statements: stops at the first one that leaves. -/
def runCode {σ : Type} : List (σ → Flow × σ) → σ → Flow × σ
  | [], s => (.next, s)
  | f :: rest, s =>
      match f s with
      | (.next, s1) => runCode rest s1
      | r => r

/-! ## Guards with explicit lifetimes

A flat program over numbered guards, each created by one of the two
constructors and destroyed by an explicit operation (a temporary, a
heap-allocated guard, a guard of an inner block). -/

/-- Program state: the guards by creation index (`none` once the lifetime has
ended), the world, and whether the program has been terminated. -/
structure Machine (σ : Type) where
  guards : List (Option (defer σ))
  world : World σ
  halted : Bool

/-- The three operations on guards. There is no copy operation: the copy
constructor and copy assignment are deleted. -/
inductive Op (σ : Type) where
  | construct (c : Callable σ)
  | moveConstruct (src : Nat) (residue : _Function_t σ)
  | destroy (i : Nat)

/-- No guards, nothing invoked yet. -/
def Machine.init {σ : Type} (s : σ) : Machine σ :=
  { guards := [], world := { calls := [], st := s }, halted := false }

/-- One operation. `none` when the operation names a guard that does not
exist or whose lifetime has ended. An exception leaving a destructor has no
handler in a flat program, so it ends the program like a termination. -/
def Machine.step {σ : Type} (m : Machine σ) : Op σ → Option (Machine σ)
  | .construct c =>
      let r := defer.ctor c m.world
      some { m with guards := m.guards ++ [some r.1], world := r.2 }
  | .moveConstruct src residue =>
      match m.guards[src]? with
      | some (some g) =>
          let r := defer.moveCtor residue g m.world
          some { m with guards := m.guards.set src (some r.2.1) ++ [some r.1], world := r.2.2 }
      | _ => none
  | .destroy i =>
      match m.guards[i]? with
      | some (some g) =>
          match g.dtor m.world with
          | .normal r => some { m with guards := m.guards.set i none, world := r.2 }
          | .thrown _ r => some { guards := m.guards.set i none, world := r.2, halted := true }
          | .terminated r => some { guards := m.guards.set i none, world := r.2, halted := true }
      | _ => none

/-- Runs a program; once the program is terminated nothing more is executed. -/
def Machine.run {σ : Type} : List (Op σ) → Machine σ → Option (Machine σ)
  | [], m => some m
  | op :: ops, m =>
      if m.halted then some m
      else
        match m.step op with
        | none => none
        | some m1 => Machine.run ops m1

/-- Weight of a guard slot for the action named `n`: 1 if the guard is alive
and holds an action of that name. -/
def holdsName {σ : Type} (n : Nat) : Option (defer σ) → Nat
  | some { _function := some a } => if a.name = n then 1 else 0
  | _ => 0

/-- Number of live guards whose slot holds the action named `n`. -/
def Machine.holders {σ : Type} (m : Machine σ) (n : Nat) : Nat :=
  (m.guards.map (holdsName n)).sum

/-- Number of times the action named `n` has been executed so far. -/
def Machine.executed {σ : Type} (m : Machine σ) (n : Nat) : Nat :=
  m.world.calls.count n

/-- Names of the actions that the construct-from-callable operations of a
program put into guards, one entry per such construction. -/
def constructedNames {σ : Type} : List (Op σ) → List Nat
  | [] => []
  | .construct c :: ops =>
      match _Function_t.ofCallable c with
      | some a => a.name :: constructedNames ops
      | none => constructedNames ops
  | _ :: ops => constructedNames ops

/-! ## Sample actions -/

/-- The action "append `x` to the log"; the user state is the log. -/
def appendAction {ι : Type} (name : Nat) (x : ι) : Action (List ι) :=
  { name := name, body := fun log => .normal (log ++ [x]) }

/-- An action that raises the failure `user code` and changes nothing. -/
def failingAction {σ : Type} (name : Nat) (code : Nat) : Action σ :=
  { name := name, body := fun s => .thrown (.user code) s }

/-! ## Programs used to state the claims -/

/-- The move-constructions `A(k+2)` from `A(k+1)`, `A(k+3)` from `A(k+2)`, ...,
one per entry of the list (the entry is what the library leaves in the
moved-from function object). -/
def moveChain {σ : Type} : Nat → List (_Function_t σ) → List (Op σ)
  | _, [] => []
  | k, r :: rs => Op.moveConstruct k r :: moveChain (k + 1) rs

/-- The chain `A1 -> A2 -> ... -> An`: `A1` is constructed from the closure `X`,
then each guard is move-constructed from the one before. Guard `Ai` has index
`i - 1`; `n` is the length of the list plus one. -/
def chainOps {σ : Type} (X : Action σ) (rs : List (_Function_t σ)) : List (Op σ) :=
  Op.construct (Callable.lambda X) :: moveChain 0 rs

/-! ## The macro `DEFER`

`#define DEFER(_Expr) defer CONCAT(XXDEFER_, __LINE__){[&](void) mutable -> void { _Expr; }}`

The macro `CONCAT` is used here but not defined in the header; it is a
parameter of the expansion: a function from the spellings of its two
arguments (the second one being what `__LINE__` stands for at the use) to the
spelling of the identifier it yields. -/

/-- The closure `[&](void) mutable -> void { _Expr; }`. Everything is captured
by reference: invoking it runs the statement `_Expr` on the variables of the
enclosing scope themselves, so `_Expr` is given by its effect on them. `name`
is the name under which invocations appear in the call trace. -/
def deferClosure {σ : Type} (name : Nat) (_Expr : σ → Outcome σ) : Action σ :=
  { name := name, body := _Expr }

/-- Where a use of `DEFER` stands in the source text. -/
structure UseSite where
  line : Nat
  column : Nat
  deriving DecidableEq

/-- Spelling of what `__LINE__` expands to: the line number in decimal. -/
def lineToken (line : Nat) : List Char :=
  (Nat.digits 10 line).reverse.map Nat.digitChar

/-- Spelling of the token `XXDEFER_`. -/
def XXDEFER_ : List Char := ['X', 'X', 'D', 'E', 'F', 'E', 'R', '_']

/-- A declaration `defer <name>{<init>}` of a guard in a block. -/
structure GuardDecl (σ : Type) where
  name : List Char
  init : Callable σ

/-- The declaration as a statement of a block. -/
def GuardDecl.stmt {σ : Type} (d : GuardDecl σ) : Stmt σ := Stmt.declare d.init

/-- Expansion of `DEFER(_Expr)` at a use site: a guard named
`CONCAT(XXDEFER_, __LINE__)`, constructed from the by-reference closure around
`_Expr`. The closure is traced under the line number. -/
def DEFER {σ : Type} (CONCAT : List Char → List Char → List Char) (site : UseSite)
    (_Expr : σ → Outcome σ) : GuardDecl σ :=
  { name := CONCAT XXDEFER_ (lineToken site.line),
    init := Callable.lambda (deferClosure site.line _Expr) }

/-! ## Basic facts about the three special members -/

theorem dtor_empty {σ : Type} (w : World σ) :
    defer.dtor { _function := none } w = .normal ({ _function := none }, w) := rfl

theorem dtor_holding {σ : Type} (X : Action σ) (w : World σ) :
    defer.dtor { _function := some X } w =
      noexcept ((X.body w.st).map
        (fun s => (({ _function := some X } : defer σ),
          ({ calls := w.calls ++ [X.name], st := s } : World σ)))) := by
  simp only [defer.dtor, _Function_t.toBool, _Function_t.call, Option.isSome_some, if_true]
  cases X.body w.st <;> rfl

theorem dtor_holding_val {σ : Type} (X : Action σ) (w : World σ) :
    (defer.dtor { _function := some X } w).val =
      ({ _function := some X }, { calls := w.calls ++ [X.name], st := (X.body w.st).val }) := by
  rw [dtor_holding]
  cases X.body w.st <;> rfl

theorem dtor_never_throws {σ : Type} (g : defer σ) (w : World σ) (e : Exn)
    (r : defer σ × World σ) : g.dtor w ≠ .thrown e r := by
  rcases g with ⟨_ | X⟩
  · simp [dtor_empty]
  · rw [dtor_holding]
    cases X.body w.st <;> simp [Outcome.map, noexcept]

theorem moveCtor_eq {σ : Type} (residue : _Function_t σ) (g : defer σ) (w : World σ) :
    defer.moveCtor residue g w = ({ _function := g._function }, { _function := none }, w) := rfl

theorem execStmts_code {σ : Type} (body : List (σ → Flow × σ)) (gs : List (defer σ))
    (w : World σ) :
    execStmts (body.map Stmt.code) gs w =
      some ((runCode body w.st).1, gs, { w with st := (runCode body w.st).2 }) := by
  induction body generalizing w with
  | nil => rfl
  | cons f rest ih =>
    simp only [List.map_cons, execStmts, runCode]
    rcases h : f w.st with ⟨how, s⟩
    cases how <;> simp [ih]

theorem execStmts_declares {σ : Type} (xs : List (Action σ)) (rest : List (Stmt σ))
    (gs : List (defer σ)) (w : World σ) :
    execStmts (xs.map (fun a => Stmt.declare (Callable.lambda a)) ++ rest) gs w =
      execStmts rest (gs ++ xs.map (fun a => ({ _function := some a } : defer σ))) w := by
  induction xs generalizing gs with
  | nil => simp
  | cons a xs ih =>
    have h := ih (gs ++ [{ _function := some a }])
    simpa [execStmts, defer.ctor, _Function_t.ofCallable] using h

/-- Result of unwinding a single guard that holds `X`. -/
theorem unwind_single {σ : Type} (X : Action σ) (how : Flow) (w : World σ) :
    unwind [{ _function := some X }] how w =
      match X.body w.st with
      | .normal s => .exited how { calls := w.calls ++ [X.name], st := s }
      | .thrown _ s => .terminated { calls := w.calls ++ [X.name], st := s }
      | .terminated s => .terminated { calls := w.calls ++ [X.name], st := s } := by
  simp only [unwind, dtor_holding]
  cases X.body w.st <;> rfl

/-! ## The claims -/

/-- C1: a guard constructed from a callable that designates the action `X`
stores `X` and leaves the world untouched (nothing is invoked by
construction); its destruction invokes `X` exactly once, on the state at that
moment, and so does the exit of a scope that declares it. Scenario A: with the
action "append 1 to log" and a normal scope end the log is `[1]`. -/
theorem C1_guard_runs_action_once_at_exit {σ : Type} (c : Callable σ) (X : Action σ)
    (w : World σ) (hc : _Function_t.ofCallable c = some X) :
    defer.ctor c w = ({ _function := some X }, w)
    ∧ (∀ w1 : World σ, (((defer.ctor c w).1.dtor w1).val.2.calls = w1.calls ++ [X.name]
        ∧ ((defer.ctor c w).1.dtor w1).val.2.st = (X.body w1.st).val))
    ∧ (runScope [Stmt.declare c] w).map (fun r => r.world) =
        some { calls := w.calls ++ [X.name], st := (X.body w.st).val }
    ∧ runScope [Stmt.declare (Callable.lambda (appendAction 0 1))] { calls := [], st := [] } =
        some (.exited .next { calls := [0], st := [1] }) := by
  have h1 : defer.ctor c w = ({ _function := some X }, w) := by
    simp [defer.ctor, hc]
  refine ⟨h1, ?_, ?_, rfl⟩
  · intro w1
    rw [h1]
    simp [dtor_holding_val]
  · simp only [runScope, execStmts, h1, List.nil_append, List.reverse_cons, List.reverse_nil,
      Option.map_some', unwind_single]
    cases X.body w.st <;> rfl

theorem C1_guard_runs_action_once_at_exit_witness :
    _Function_t.ofCallable (Callable.pointer (some (appendAction 3 (5 : Nat))))
        = some (appendAction 3 5)
    ∧ (runScope [Stmt.declare (Callable.pointer (some (appendAction 3 (5 : Nat))))]
        { calls := [], st := [] }).map (fun r => r.world) =
        some { calls := [] ++ [(appendAction 3 (5 : Nat)).name],
               st := ((appendAction 3 (5 : Nat)).body []).val } :=
  ⟨rfl, (C1_guard_runs_action_once_at_exit (Callable.pointer (some (appendAction 3 (5 : Nat))))
    (appendAction 3 5) { calls := [], st := [] } rfl).2.2.1⟩

/-- C2: when `B` is move-constructed from a guard `A` holding `X`, the move
invokes nothing (the world is unchanged), `B` holds `X` and `A` is left empty;
destroying `A` afterwards invokes nothing and destroying `B` invokes `X`
exactly once. In a scope that declares both, exit invokes `X` exactly once.
Scenario B: with "append 1 to log" the log is `[1]` after both are destroyed. -/
theorem C2_move_clears_source {σ : Type} (X : Action σ) (residue : _Function_t σ)
    (w : World σ) :
    defer.moveCtor residue { _function := some X } w =
        ({ _function := some X }, { _function := none }, w)
    ∧ (∀ w1 : World σ,
        (defer.moveCtor residue { _function := some X } w).2.1.dtor w1 =
          .normal ({ _function := none }, w1))
    ∧ (∀ w1 : World σ,
        ((defer.moveCtor residue { _function := some X } w).1.dtor w1).val.2 =
          { calls := w1.calls ++ [X.name], st := (X.body w1.st).val })
    ∧ (runScope [Stmt.declare (Callable.lambda X), Stmt.declareMove 0 residue] w).map
          (fun r => r.world) =
        some { calls := w.calls ++ [X.name], st := (X.body w.st).val }
    ∧ (∀ r : _Function_t (List Nat),
        runScope [Stmt.declare (Callable.lambda (appendAction 0 1)), Stmt.declareMove 0 r]
          { calls := [], st := [] } = some (.exited .next { calls := [0], st := [1] })) := by
  refine ⟨rfl, fun w1 => rfl, fun w1 => ?_, ?_, fun r => rfl⟩
  · simp [moveCtor_eq, dtor_holding_val]
  · simp only [runScope, execStmts, defer.ctor, _Function_t.ofCallable, moveCtor_eq,
      List.nil_append, List.getElem?_cons_zero, List.set_cons_zero, List.singleton_append,
      List.reverse_cons, List.reverse_nil, Option.map_some', unwind, dtor_holding, dtor_empty]
    cases X.body w.st <;> rfl

/-- C3, counterexample: a guard whose action raises `user 7` is destroyed; the
failure does not leave the destructor (the outcome is a termination, not the
thrown failure), and the scope that owns the guard is not left with the
failure in flight: the program is terminated. -/
theorem C3_failure_propagates_counterexample :
    (failingAction 0 7 : Action Unit).body () = .thrown (.user 7) ()
    ∧ defer.dtor { _function := some (failingAction 0 7) } { calls := [], st := () } =
        .terminated ({ _function := some (failingAction 0 7) }, { calls := [0], st := () })
    ∧ (∀ r, defer.dtor { _function := some (failingAction 0 7) } { calls := [], st := () } ≠
        .thrown (.user 7) r)
    ∧ runScope [Stmt.declare (Callable.lambda (failingAction 0 7))] { calls := [], st := () } =
        some (.terminated { calls := [0], st := () })
    ∧ runScope [Stmt.declare (Callable.lambda (failingAction 0 7))] { calls := [], st := () } ≠
        some (.exited (.throw (.user 7)) { calls := [0], st := () }) := by
  refine ⟨rfl, rfl, ?_, rfl, by decide⟩
  intro r h
  cases h

/-- C3, amended: when the action of a guard fails on invocation by the
destructor, the guard has no recovery logic (the state is the one the action
left when it failed, and the action was invoked once), but the failure does
not leave the `noexcept` destructor: the program is terminated there, and a
scope being left, in whatever way, is terminated instead of handing the
failure to its caller. No destructor run ever ends with a thrown failure. -/
theorem C3_failing_action_terminates {σ : Type} (X : Action σ) (w : World σ) (e : Exn) (s : σ)
    (hfail : X.body w.st = .thrown e s) :
    defer.dtor { _function := some X } w =
        .terminated ({ _function := some X }, { calls := w.calls ++ [X.name], st := s })
    ∧ (∀ (g : defer σ) (w1 : World σ) (e1 : Exn) (r : defer σ × World σ),
        g.dtor w1 ≠ .thrown e1 r)
    ∧ (∀ how : Flow, unwind [{ _function := some X }] how w =
        .terminated { calls := w.calls ++ [X.name], st := s }) := by
  refine ⟨?_, fun g w1 e1 r => dtor_never_throws g w1 e1 r, fun how => ?_⟩
  · rw [dtor_holding, hfail]; rfl
  · rw [unwind_single, hfail]

theorem C3_failing_action_terminates_witness :
    (failingAction 4 9 : Action Nat).body 2 = .thrown (.user 9) 2
    ∧ defer.dtor { _function := some (failingAction 4 9) } { calls := [], st := (2 : Nat) } =
        .terminated ({ _function := some (failingAction 4 9) },
          { calls := [] ++ [(failingAction 4 9 : Action Nat).name], st := 2 }) :=
  ⟨rfl, (C3_failing_action_terminates (failingAction 4 9) { calls := [], st := (2 : Nat) }
    (.user 9) 2 rfl).1⟩

/-- Unwinding guards whose actions all complete: every action is invoked, in
the order of the list, and the scope is left the way it was being left. -/
theorem unwind_all_complete {σ : Type} (ys : List (Action σ)) (how : Flow) (w : World σ)
    (hok : ∀ a ∈ ys, ∀ s : σ, ∃ s1 : σ, a.body s = .normal s1) :
    unwind (ys.map (fun a => ({ _function := some a } : defer σ))) how w =
      .exited how { calls := w.calls ++ ys.map (fun a => a.name),
                    st := ys.foldl (fun s a => (a.body s).val) w.st } := by
  induction ys generalizing w with
  | nil => simp [unwind]
  | cons a ys ih =>
    obtain ⟨s1, hs1⟩ := hok a (List.mem_cons_self a ys) w.st
    have ih1 := ih { calls := w.calls ++ [a.name], st := s1 }
      (fun b hb => hok b (List.mem_cons_of_mem a hb))
    simp only [List.map_cons, unwind, dtor_holding, hs1, Outcome.map, noexcept, ih1,
      List.foldl_cons, Outcome.val, List.append_assoc, List.singleton_append]

/-- The actions invoked by an unwinding are an initial segment of the guards'
actions in the order of destruction. -/
theorem unwind_calls_initial_segment {σ : Type} (ys : List (Action σ)) (how : Flow)
    (w : World σ) :
    ∃ k, k ≤ ys.length ∧
      (unwind (ys.map (fun a => ({ _function := some a } : defer σ))) how w).world.calls =
        w.calls ++ (ys.map (fun a => a.name)).take k := by
  induction ys generalizing w with
  | nil => exact ⟨0, le_refl _, by simp [unwind, ScopeResult.world]⟩
  | cons a ys ih =>
    simp only [List.map_cons, unwind, dtor_holding]
    rcases h : a.body w.st with s1 | ⟨e, s1⟩ | s1
    · obtain ⟨k, hk, hc⟩ := ih { calls := w.calls ++ [a.name], st := s1 }
      refine ⟨k + 1, by simpa using hk, ?_⟩
      simpa [Outcome.map, noexcept] using hc
    · exact ⟨1, by simp, by simp [Outcome.map, noexcept, ScopeResult.world]⟩
    · exact ⟨1, by simp, by simp [Outcome.map, noexcept, ScopeResult.world]⟩

/-- C5, counterexample: `G1` appends `A`, `G2` fails. At scope exit `G2` is
invoked, the program is terminated, and the action of `G1` is never executed:
the log stays empty. -/
theorem C5_reverse_order_counterexample :
    runScope [Stmt.declare (Callable.lambda (appendAction 0 'A')),
              Stmt.declare (Callable.lambda (failingAction 1 7))] { calls := [], st := [] } =
      some (.terminated { calls := [1], st := [] })
    ∧ (runScope [Stmt.declare (Callable.lambda (appendAction 0 'A')),
              Stmt.declare (Callable.lambda (failingAction 1 7))] { calls := [], st := [] }).map
        (fun r => r.world.calls.count 0) = some 0 := by
  constructor <;> rfl

/-- C5, amended: guards `G1..Gn` declared in that order in one scope, none
moved-from, whose actions all complete without failure: whichever way the rest
of the scope ends, scope exit invokes the actions in reverse declaration order
`Gn, ..., G1`, each exactly once, every one on the state left by the one
before. Scenario C: "append A", "append B", "append C" give the log
`[C, B, A]`. -/
theorem C5_reverse_declaration_order {σ : Type} (xs : List (Action σ))
    (body : List (σ → Flow × σ)) (w : World σ)
    (hok : ∀ a ∈ xs, ∀ s : σ, ∃ s1 : σ, a.body s = .normal s1) :
    runScope (xs.map (fun a => Stmt.declare (Callable.lambda a)) ++ body.map Stmt.code) w =
        some (.exited (runCode body w.st).1
          { calls := w.calls ++ xs.reverse.map (fun a => a.name),
            st := xs.reverse.foldl (fun s a => (a.body s).val) (runCode body w.st).2 })
    ∧ runScope [Stmt.declare (Callable.lambda (appendAction 0 'A')),
                Stmt.declare (Callable.lambda (appendAction 1 'B')),
                Stmt.declare (Callable.lambda (appendAction 2 'C'))] { calls := [], st := [] } =
        some (.exited .next { calls := [2, 1, 0], st := ['C', 'B', 'A'] }) := by
  refine ⟨?_, rfl⟩
  have hok1 : ∀ a ∈ xs.reverse, ∀ s : σ, ∃ s1 : σ, a.body s = .normal s1 :=
    fun a ha => hok a (List.mem_reverse.mp ha)
  simp only [runScope, execStmts_declares, execStmts_code, List.nil_append]
  rw [← List.map_reverse, unwind_all_complete _ _ _ hok1]

theorem C5_reverse_declaration_order_witness :
    (∀ a ∈ [appendAction 0 (10 : Nat), appendAction 1 20], ∀ s : List Nat,
        ∃ s1 : List Nat, a.body s = .normal s1)
    ∧ runScope ([appendAction 0 (10 : Nat), appendAction 1 20].map
          (fun a => Stmt.declare (Callable.lambda a)) ++
          [fun s => (Flow.ret, s ++ [5])].map Stmt.code) { calls := [], st := [] } =
        some (.exited (runCode [fun s => (Flow.ret, s ++ [5])] ([] : List Nat)).1
          { calls := [] ++ [appendAction 0 (10 : Nat), appendAction 1 20].reverse.map
              (fun a => a.name),
            st := [appendAction 0 (10 : Nat), appendAction 1 20].reverse.foldl
              (fun s a => (a.body s).val) (runCode [fun s => (Flow.ret, s ++ [5])] []).2 }) :=
  ⟨by intro a ha s; simp [appendAction] at ha; rcases ha with rfl | rfl <;> exact ⟨_, rfl⟩,
   (C5_reverse_declaration_order [appendAction 0 (10 : Nat), appendAction 1 20]
      [fun s => (Flow.ret, s ++ [5])] { calls := [], st := [] }
      (by intro a ha s; simp [appendAction] at ha; rcases ha with rfl | rfl <;> exact ⟨_, rfl⟩)).1⟩

/-- Unwinding past guards whose actions all complete: each of them is invoked,
in the order of the list, and unwinding goes on with the guards behind them. -/
theorem unwind_complete_append {σ : Type} (ys : List (Action σ)) (rest : List (defer σ))
    (how : Flow) (w : World σ)
    (hok : ∀ a ∈ ys, ∀ s : σ, ∃ s1 : σ, a.body s = .normal s1) :
    unwind (ys.map (fun a => ({ _function := some a } : defer σ)) ++ rest) how w =
      unwind rest how { calls := w.calls ++ ys.map (fun a => a.name),
                        st := ys.foldl (fun s a => (a.body s).val) w.st } := by
  induction ys generalizing w with
  | nil => simp
  | cons a ys ih =>
    obtain ⟨s1, hs1⟩ := hok a (List.mem_cons_self a ys) w.st
    have ih1 := ih { calls := w.calls ++ [a.name], st := s1 }
      (fun b hb => hok b (List.mem_cons_of_mem a hb))
    simpa [unwind, dtor_holding, hs1, Outcome.map, noexcept, Outcome.val] using ih1

/-- C4, counterexample: a scope owns the never-moved guard `G` ("append 1 to
log") and a guard declared after it whose action fails; the body ends by an
early return. At scope exit the later guard is destroyed first, its failure
terminates the program, and the action of `G` is executed zero times. -/
theorem C4_every_exit_path_counterexample :
    runScope [Stmt.declare (Callable.lambda (appendAction 0 (1 : Nat))),
              Stmt.declare (Callable.lambda (failingAction 1 7)),
              Stmt.code (fun s => (Flow.ret, s))] { calls := [], st := [] } =
      some (.terminated { calls := [1], st := [] })
    ∧ (runScope [Stmt.declare (Callable.lambda (appendAction 0 (1 : Nat))),
              Stmt.declare (Callable.lambda (failingAction 1 7)),
              Stmt.code (fun s => (Flow.ret, s))] { calls := [], st := [] }).map
        (fun r => r.world.calls.count 0) = some 0 := by
  constructor <;> rfl

/-- C4, amended: a scope owns the never-moved guard for `X`, declared after the
guards `xs` and before the guards `ys`, and then runs any body. Provided the
actions of the guards declared after it (`ys`, destroyed before it) complete
without failure, `X` is invoked exactly once, whichever way the body ends
(falling through, `return`, or a thrown exception): at scope exit, on the state
left by the body and by the later guards, before any action of the earlier
guards. When `X` completes the scope goes on unwinding the earlier guards, when
`X` fails the program is terminated. In particular a scope whose only guard is
the one for `X` invokes `X` exactly once on every exit path. -/
theorem C4_action_runs_once_on_every_exit_path {σ : Type} (xs ys : List (Action σ))
    (X : Action σ) (body : List (σ → Flow × σ)) (w : World σ)
    (hok : ∀ a ∈ ys, ∀ s : σ, ∃ s1 : σ, a.body s = .normal s1) :
    runScope ((xs ++ X :: ys).map (fun a => Stmt.declare (Callable.lambda a)) ++
        body.map Stmt.code) w =
      some (match X.body (ys.reverse.foldl (fun s a => (a.body s).val) (runCode body w.st).2) with
        | .normal s =>
            unwind (xs.reverse.map (fun a => ({ _function := some a } : defer σ)))
              (runCode body w.st).1
              { calls := w.calls ++ ys.reverse.map (fun a => a.name) ++ [X.name], st := s }
        | .thrown _ s =>
            .terminated { calls := w.calls ++ ys.reverse.map (fun a => a.name) ++ [X.name],
                          st := s }
        | .terminated s =>
            .terminated { calls := w.calls ++ ys.reverse.map (fun a => a.name) ++ [X.name],
                          st := s })
    ∧ (∃ k, k ≤ xs.length ∧
        (runScope ((xs ++ X :: ys).map (fun a => Stmt.declare (Callable.lambda a)) ++
            body.map Stmt.code) w).map (fun r => r.world.calls) =
          some (w.calls ++ ys.reverse.map (fun a => a.name) ++
            X.name :: (xs.reverse.map (fun a => a.name)).take k))
    ∧ runScope (Stmt.declare (Callable.lambda X) :: body.map Stmt.code) w =
        some (match X.body (runCode body w.st).2 with
          | .normal s => .exited (runCode body w.st).1 { calls := w.calls ++ [X.name], st := s }
          | .thrown _ s => .terminated { calls := w.calls ++ [X.name], st := s }
          | .terminated s => .terminated { calls := w.calls ++ [X.name], st := s }) := by
  have hok1 : ∀ a ∈ ys.reverse, ∀ s : σ, ∃ s1 : σ, a.body s = .normal s1 :=
    fun a ha => hok a (List.mem_reverse.mp ha)
  have hrev : ((xs ++ X :: ys).map (fun a => ({ _function := some a } : defer σ))).reverse =
      ys.reverse.map (fun a => ({ _function := some a } : defer σ)) ++
        ({ _function := some X } :: xs.reverse.map (fun a => ({ _function := some a } : defer σ))) := by
    simp [List.map_reverse]
  have hrun : runScope ((xs ++ X :: ys).map (fun a => Stmt.declare (Callable.lambda a)) ++
        body.map Stmt.code) w =
      some (match X.body (ys.reverse.foldl (fun s a => (a.body s).val) (runCode body w.st).2) with
        | .normal s =>
            unwind (xs.reverse.map (fun a => ({ _function := some a } : defer σ)))
              (runCode body w.st).1
              { calls := w.calls ++ ys.reverse.map (fun a => a.name) ++ [X.name], st := s }
        | .thrown _ s =>
            .terminated { calls := w.calls ++ ys.reverse.map (fun a => a.name) ++ [X.name],
                          st := s }
        | .terminated s =>
            .terminated { calls := w.calls ++ ys.reverse.map (fun a => a.name) ++ [X.name],
                          st := s }) := by
    simp only [runScope, execStmts_declares, execStmts_code, List.nil_append]
    rw [hrev, unwind_complete_append _ _ _ _ hok1]
    simp only [unwind, dtor_holding]
    cases X.body (ys.reverse.foldl (fun s a => (a.body s).val) (runCode body w.st).2) <;> rfl
  refine ⟨hrun, ?_, ?_⟩
  · rcases hb : X.body (ys.reverse.foldl (fun s a => (a.body s).val) (runCode body w.st).2)
      with s | ⟨e, s⟩ | s
    · obtain ⟨k, hk, hc⟩ := unwind_calls_initial_segment xs.reverse (runCode body w.st).1
        { calls := w.calls ++ ys.reverse.map (fun a => a.name) ++ [X.name], st := s }
      refine ⟨k, by simpa using hk, ?_⟩
      rw [hrun, hb]
      simp only [Option.map_some', hc]
      simp
    · refine ⟨0, Nat.zero_le _, ?_⟩
      rw [hrun, hb]
      simp [ScopeResult.world]
    · refine ⟨0, Nat.zero_le _, ?_⟩
      rw [hrun, hb]
      simp [ScopeResult.world]
  · have h : runScope (Stmt.declare (Callable.lambda X) :: body.map Stmt.code) w =
        some (unwind [{ _function := some X }] (runCode body w.st).1
          { w with st := (runCode body w.st).2 }) := by
      simp [runScope, execStmts, defer.ctor, _Function_t.ofCallable, execStmts_code]
    rw [h, unwind_single]

theorem C4_action_runs_once_on_every_exit_path_witness :
    (∀ a ∈ [appendAction 2 (30 : Nat)], ∀ s : List Nat, ∃ s1 : List Nat, a.body s = .normal s1)
    ∧ (∃ k, k ≤ [appendAction 0 (10 : Nat)].length ∧
        (runScope (([appendAction 0 (10 : Nat)] ++ appendAction 1 20 :: [appendAction 2 30]).map
              (fun a => Stmt.declare (Callable.lambda a)) ++
            [fun s => (Flow.throw (Exn.user 3), s ++ [5])].map Stmt.code)
            { calls := [], st := [] }).map (fun r => r.world.calls) =
          some ([] ++ [appendAction 2 (30 : Nat)].reverse.map (fun a => a.name) ++
            (appendAction 1 (20 : Nat)).name ::
              ([appendAction 0 (10 : Nat)].reverse.map (fun a => a.name)).take k)) :=
  ⟨by intro a ha s; simp [appendAction] at ha; subst ha; exact ⟨_, rfl⟩,
   (C4_action_runs_once_on_every_exit_path [appendAction 0 (10 : Nat)] [appendAction 2 30]
      (appendAction 1 20) [fun s => (Flow.throw (Exn.user 3), s ++ [5])]
      { calls := [], st := [] }
      (by intro a ha s; simp [appendAction] at ha; subst ha; exact ⟨_, rfl⟩)).2.1⟩

/-! ## Ownership accounting on the flat machine -/

theorem sum_map_set {α : Type} (f : α → Nat) (l : List α) (i : Nat) (x y : α)
    (h : l[i]? = some y) :
    ((l.set i x).map f).sum + f y = (l.map f).sum + f x := by
  induction l generalizing i with
  | nil => simp at h
  | cons z l ih =>
    cases i with
    | zero =>
      simp only [List.getElem?_cons_zero, Option.some.injEq] at h
      subst h
      simp only [List.set_cons_zero, List.map_cons, List.sum_cons]
      omega
    | succ j =>
      simp only [List.getElem?_cons_succ] at h
      have := ih j h
      simp only [List.set_cons_succ, List.map_cons, List.sum_cons]
      omega

theorem count_single (n k : Nat) : List.count n [k] = if k = n then 1 else 0 := by
  by_cases h : k = n
  · subst h; simp
  · have h1 : ¬ (n = k) := fun e => h e.symm
    simp [List.count_cons, h, h1]

theorem constructedNames_cons {σ : Type} (op : Op σ) (ops : List (Op σ)) :
    constructedNames (op :: ops) = constructedNames [op] ++ constructedNames ops := by
  cases op with
  | construct c =>
    simp only [constructedNames]
    cases _Function_t.ofCallable c <;> simp
  | moveConstruct src residue => simp [constructedNames]
  | destroy i => simp [constructedNames]

/-- Conservation: a step changes "guards holding `n`" plus "executions of `n`"
by exactly the number of actions named `n` that the step constructs. -/
theorem step_conserves {σ : Type} (m m1 : Machine σ) (op : Op σ) (n : Nat)
    (h : m.step op = some m1) :
    m1.holders n + m1.executed n =
      m.holders n + m.executed n + (constructedNames [op]).count n := by
  cases op with
  | construct c =>
    simp only [Machine.step, defer.ctor, Option.some.injEq] at h
    subst h
    simp only [Machine.holders, Machine.executed, List.map_append, List.sum_append,
      List.map_cons, List.map_nil, List.sum_cons, List.sum_nil, constructedNames]
    cases hc : _Function_t.ofCallable c with
    | none => simp [holdsName]
    | some a =>
      have hw : holdsName n (some ({ _function := some a } : defer σ)) =
          if a.name = n then 1 else 0 := rfl
      rw [hw, count_single]
      omega
  | moveConstruct src residue =>
    simp only [Machine.step] at h
    rcases hg : m.guards[src]? with _ | _ | g
    · simp [hg] at h
    · simp [hg] at h
    · simp only [hg, moveCtor_eq, Option.some.injEq] at h
      subst h
      have hs := sum_map_set (holdsName n) m.guards src (some { _function := none }) (some g) hg
      have hw : holdsName n (some ({ _function := g._function } : defer σ)) =
          holdsName n (some g) := rfl
      have h0 : holdsName n (some ({ _function := none } : defer σ)) = 0 := rfl
      simp only [Machine.holders, Machine.executed, List.map_append, List.sum_append,
        List.map_cons, List.map_nil, List.sum_cons, List.sum_nil, constructedNames,
        List.count_nil, hw]
      omega
  | destroy i =>
    simp only [Machine.step] at h
    rcases hg : m.guards[i]? with _ | _ | g
    · simp [hg] at h
    · simp [hg] at h
    · have hs := sum_map_set (holdsName n) m.guards i none (some g) hg
      have h0 : holdsName n (none : Option (defer σ)) = 0 := rfl
      rcases g with ⟨_ | a⟩
      · simp only [hg, dtor_empty, Option.some.injEq] at h
        subst h
        have hw : holdsName n (some ({ _function := none } : defer σ)) = 0 := rfl
        simp only [Machine.holders, Machine.executed, constructedNames, List.count_nil]
        omega
      · have hw : holdsName n (some ({ _function := some a } : defer σ)) =
            if a.name = n then 1 else 0 := rfl
        have hcnt : (m.world.calls ++ [a.name]).count n =
            m.world.calls.count n + if a.name = n then 1 else 0 := by
          rw [List.count_append, count_single]
        simp only [hg, dtor_holding] at h
        rcases hb : a.body m.world.st with s1 | ⟨e, s1⟩ | s1 <;>
          simp only [hb, Outcome.map, noexcept, Option.some.injEq] at h <;>
          subst h <;>
          simp only [Machine.holders, Machine.executed, constructedNames, List.count_nil,
            hcnt] <;>
          omega

theorem run_halted {σ : Type} (ops : List (Op σ)) (m : Machine σ) (h : m.halted = true) :
    Machine.run ops m = some m := by
  cases ops <;> simp [Machine.run, h]

/-- Along any run, "holders plus executions" of a name never exceeds the
number of actions of that name that were constructed, plus what was there at
the start. -/
theorem run_accounting {σ : Type} (ops : List (Op σ)) (m m1 : Machine σ) (n : Nat)
    (h : Machine.run ops m = some m1) :
    m1.holders n + m1.executed n ≤
      m.holders n + m.executed n + (constructedNames ops).count n := by
  induction ops generalizing m with
  | nil =>
    simp only [Machine.run, Option.some.injEq] at h
    subst h
    omega
  | cons op ops ih =>
    simp only [Machine.run] at h
    by_cases hh : m.halted = true
    · simp only [hh, if_true, Option.some.injEq] at h
      subst h
      omega
    · simp only [hh, Bool.false_eq_true, if_false] at h
      rcases hs : m.step op with _ | m2
      · simp [hs] at h
      · simp only [hs] at h
        have h1 := step_conserves m m2 op n hs
        have h2 := ih m2 h
        rw [constructedNames_cons, List.count_append]
        omega

theorem run_append {σ : Type} (a b : List (Op σ)) (m m1 : Machine σ)
    (h : Machine.run a m = some m1) :
    Machine.run (a ++ b) m = Machine.run b m1 := by
  induction a generalizing m with
  | nil =>
    simp only [Machine.run, Option.some.injEq] at h
    subst h
    rfl
  | cons op a ih =>
    simp only [List.cons_append, Machine.run] at h ⊢
    by_cases hh : m.halted = true
    · simp only [hh, if_true, Option.some.injEq] at h ⊢
      subst h
      exact (run_halted b m hh).symm
    · simp only [hh, Bool.false_eq_true, if_false] at h ⊢
      rcases hs : m.step op with _ | m2
      · simp [hs] at h
      · simp only [hs] at h ⊢
        exact ih m2 h

theorem getElem?_replicate_append {α : Type} (k : Nat) (e x : α) :
    (List.replicate k e ++ [x])[k]? = some x := by
  induction k with
  | zero => rfl
  | succ k ih => simp [List.replicate_succ, ih]

theorem set_replicate_append {α : Type} (k : Nat) (e x y : α) :
    (List.replicate k e ++ [x]).set k y = List.replicate k e ++ [y] := by
  induction k with
  | zero => rfl
  | succ k ih => simp [List.replicate_succ, ih]

theorem replicate_append_self {α : Type} (k : Nat) (e : α) :
    List.replicate k e ++ [e] = List.replicate (k + 1) e := by
  induction k with
  | zero => rfl
  | succ k ih =>
    rw [List.replicate_succ, List.cons_append, ih]
    rfl

/-- State after a chain of moves: every guard but the last is alive and
empty, the last one holds the action; the world is untouched. -/
theorem run_moveChain {σ : Type} (X : Action σ) (rs : List (_Function_t σ)) (k : Nat)
    (w : World σ) :
    Machine.run (moveChain k rs)
        { guards := List.replicate k (some { _function := none }) ++
            [some { _function := some X }], world := w, halted := false } =
      some { guards := List.replicate (k + rs.length) (some { _function := none }) ++
            [some { _function := some X }], world := w, halted := false } := by
  induction rs generalizing k with
  | nil => rfl
  | cons r rs ih =>
    have h := ih (k + 1)
    simp only [moveChain, Machine.run, Machine.step, Bool.false_eq_true, if_false,
      getElem?_replicate_append, moveCtor_eq, set_replicate_append, List.append_assoc,
      List.singleton_append, List.length_cons]
    rw [← List.singleton_append, ← List.append_assoc, replicate_append_self, h]
    have e : k + 1 + rs.length = k + (rs.length + 1) := by omega
    rw [e]

theorem run_chainOps {σ : Type} (X : Action σ) (rs : List (_Function_t σ)) (s0 : σ) :
    Machine.run (chainOps X rs) (Machine.init s0) =
      some { guards := List.replicate rs.length (some { _function := none }) ++
            [some { _function := some X }],
             world := { calls := [], st := s0 }, halted := false } := by
  have h := run_moveChain X rs 0 { calls := [], st := s0 }
  simp only [List.replicate_zero, List.nil_append, Nat.zero_add] at h
  simpa [chainOps, Machine.run, Machine.init, Machine.step, defer.ctor,
    _Function_t.ofCallable] using h

/-- Destroying distinct live guards of which only the one with index `k` may
hold an action (`X`): `X` is invoked exactly when `k` is among them, once. -/
theorem run_destroys {σ : Type} (X : Action σ) (k : Nat) (ds : List Nat) (m : Machine σ)
    (hnd : ds.Nodup) (hh : m.halted = false)
    (hg : ∀ i ∈ ds, ∃ g : defer σ, m.guards[i]? = some (some g) ∧
      g._function = if i = k then some X else none) :
    ∃ m1, Machine.run (ds.map Op.destroy) m = some m1
      ∧ m1.world.calls = m.world.calls ++ (if k ∈ ds then [X.name] else [])
      ∧ m1.world.st = if k ∈ ds then (X.body m.world.st).val else m.world.st := by
  induction ds generalizing m with
  | nil => exact ⟨m, rfl, by simp, by simp⟩
  | cons d ds ih =>
    obtain ⟨gs0, w0, hl0⟩ := m
    simp only at hh hg ⊢
    subst hh
    obtain ⟨g, hgd, hf⟩ := hg d (List.mem_cons_self d ds)
    have hnd1 : ds.Nodup := (List.nodup_cons.mp hnd).2
    have hd : d ∉ ds := (List.nodup_cons.mp hnd).1
    have hrest : ∀ (gs : List (Option (defer σ))), gs = gs0.set d none →
        ∀ i ∈ ds, ∃ g : defer σ, gs[i]? = some (some g) ∧
          g._function = if i = k then some X else none := by
      intro gs hgs i hi
      obtain ⟨g1, hg1, hf1⟩ := hg i (List.mem_cons_of_mem d hi)
      have hne : d ≠ i := fun e => hd (e ▸ hi)
      exact ⟨g1, by rw [hgs, List.getElem?_set_ne hne]; exact hg1, hf1⟩
    rcases g with ⟨f⟩
    simp only at hf
    by_cases hdk : d = k
    · subst hdk
      simp only [if_true] at hf
      subst hf
      simp only [List.map_cons, Machine.run, Bool.false_eq_true, if_false, Machine.step,
        hgd, dtor_holding, List.mem_cons, true_or, if_true]
      rcases hb : X.body w0.st with s1 | ⟨e, s1⟩ | s1
      · simp only [Outcome.map, noexcept]
        obtain ⟨m1, hr, hc, hs⟩ := ih
          { guards := gs0.set d none,
            world := { calls := w0.calls ++ [X.name], st := s1 }, halted := false }
          hnd1 rfl (hrest _ rfl)
        refine ⟨m1, hr, ?_, ?_⟩
        · simpa [hd] using hc
        · simpa [hd, Outcome.val] using hs
      · simp only [Outcome.map, noexcept]
        exact ⟨_, run_halted _ _ rfl, rfl, rfl⟩
      · simp only [Outcome.map, noexcept]
        exact ⟨_, run_halted _ _ rfl, rfl, rfl⟩
    · simp only [hdk, if_false] at hf
      subst hf
      have hkd : ¬ k = d := fun e => hdk e.symm
      simp only [List.map_cons, Machine.run, Bool.false_eq_true, if_false, Machine.step,
        hgd, dtor_empty, List.mem_cons, hkd, false_or]
      exact ih { guards := gs0.set d none, world := w0, halted := false } hnd1 rfl
        (hrest _ rfl)

/-- C6, counterexample: the same action ("append 1 to log", name 0) is given
to two constructions. Both guards hold it at the same time, and after both
are destroyed it has been executed twice: the log is `[1, 1]`. -/
theorem C6_exclusive_owner_counterexample :
    (Machine.run [Op.construct (Callable.lambda (appendAction 0 (1 : Nat))),
        Op.construct (Callable.lambda (appendAction 0 1))] (Machine.init [])).map
          (fun m => m.holders 0) = some 2
    ∧ (Machine.run [Op.construct (Callable.lambda (appendAction 0 (1 : Nat))),
        Op.construct (Callable.lambda (appendAction 0 1)), Op.destroy 0, Op.destroy 1]
        (Machine.init [])).map (fun m => (m.world, m.executed 0)) =
      some ({ calls := [0, 0], st := [1, 1] }, 2) := by
  constructor <;> rfl

/-- C6, amended: in every state reached from the state without guards by
construct-from-callable, move-construct and destroy (a guard whose lifetime
has ended cannot be destroyed again), provided every construction is given an
action of its own (distinct names): an action is held by at most one live
guard (I1), it has been executed at most once over the whole run (I2), and
never both held and already executed. Move-construction and destruction never
duplicate an action: a move-construction leaves the number of holders of every
action unchanged and a destruction never increases it. Construction from a
callable adds one holder of the action it is given and executes nothing; it is
the only operation by which an action given twice ends up in two guards. -/
theorem C6_exclusive_owner_at_most_once {σ : Type} (s0 : σ) (ops : List (Op σ))
    (m : Machine σ) (n : Nat)
    (hrun : Machine.run ops (Machine.init s0) = some m)
    (hfresh : (constructedNames ops).Nodup) :
    m.holders n ≤ 1
    ∧ m.executed n ≤ 1
    ∧ m.holders n + m.executed n ≤ 1
    ∧ (∀ (m1 m2 : Machine σ) (src : Nat) (residue : _Function_t σ),
        m1.step (.moveConstruct src residue) = some m2 →
          m2.holders n = m1.holders n ∧ m2.executed n = m1.executed n)
    ∧ (∀ (m1 m2 : Machine σ) (i : Nat),
        m1.step (.destroy i) = some m2 → m2.holders n ≤ m1.holders n)
    ∧ (∀ (m1 m2 : Machine σ) (c : Callable σ),
        m1.step (.construct c) = some m2 →
          m2.holders n = m1.holders n + (constructedNames [Op.construct c]).count n
          ∧ m2.executed n = m1.executed n) := by
  have hacc := run_accounting ops (Machine.init s0) m n hrun
  have hcount : (constructedNames ops).count n ≤ 1 := List.nodup_iff_count_le_one.mp hfresh n
  have hinit : (Machine.init s0).holders n + (Machine.init s0).executed n = 0 := by
    simp [Machine.init, Machine.holders, Machine.executed]
  refine ⟨by omega, by omega, by omega, ?_, ?_, ?_⟩
  · intro m1 m2 src residue hstep
    have hc := step_conserves m1 m2 _ n hstep
    have hw : m2.world = m1.world := by
      simp only [Machine.step] at hstep
      rcases hg : m1.guards[src]? with _ | _ | g
      · simp [hg] at hstep
      · simp [hg] at hstep
      · simp only [hg, moveCtor_eq, Option.some.injEq] at hstep
        subst hstep
        rfl
    have he : m2.executed n = m1.executed n := by simp [Machine.executed, hw]
    simp only [constructedNames, List.count_nil] at hc
    omega
  · intro m1 m2 i hstep
    have hc := step_conserves m1 m2 _ n hstep
    have hmono : m1.executed n ≤ m2.executed n := by
      simp only [Machine.step] at hstep
      rcases hg : m1.guards[i]? with _ | _ | g
      · simp [hg] at hstep
      · simp [hg] at hstep
      · rcases g with ⟨_ | a⟩
        · simp only [hg, dtor_empty, Option.some.injEq] at hstep
          subst hstep
          exact le_refl _
        · simp only [hg, dtor_holding] at hstep
          rcases hb : a.body m1.world.st with s1 | ⟨e, s1⟩ | s1 <;>
            simp only [hb, Outcome.map, noexcept, Option.some.injEq] at hstep <;>
            subst hstep <;>
            simp [Machine.executed, List.count_append]
    simp only [constructedNames, List.count_nil] at hc
    omega
  · intro m1 m2 c hstep
    have hc := step_conserves m1 m2 _ n hstep
    have hw : m2.world = m1.world := by
      simp only [Machine.step, defer.ctor, Option.some.injEq] at hstep
      subst hstep
      rfl
    have he : m2.executed n = m1.executed n := by simp [Machine.executed, hw]
    exact ⟨by omega, he⟩

theorem C6_exclusive_owner_at_most_once_witness :
    Machine.run [Op.construct (Callable.lambda (appendAction 0 (1 : Nat))),
        Op.construct (Callable.lambda (appendAction 1 2)), Op.moveConstruct 0 none,
        Op.destroy 2] (Machine.init []) =
      some { guards := [some { _function := none },
                        some { _function := some (appendAction 1 2) }, none],
             world := { calls := [0], st := [1] }, halted := false }
    ∧ (constructedNames [Op.construct (Callable.lambda (appendAction 0 (1 : Nat))),
        Op.construct (Callable.lambda (appendAction 1 2)), Op.moveConstruct 0 none,
        Op.destroy 2]).Nodup
    ∧ (({ guards := [some { _function := none },
                     some { _function := some (appendAction 1 2) }, none],
          world := { calls := [0], st := [1] }, halted := false } :
          Machine (List Nat)).holders 1 ≤ 1) :=
  ⟨rfl, by decide,
   (C6_exclusive_owner_at_most_once [] [Op.construct (Callable.lambda (appendAction 0 (1 : Nat))),
        Op.construct (Callable.lambda (appendAction 1 2)), Op.moveConstruct 0 none,
        Op.destroy 2] _ 1 rfl (by decide)).1⟩

theorem chain_guard_at {σ : Type} (X : Action σ) (k i : Nat) (hi : i ≤ k) :
    ∃ g : defer σ,
      (List.replicate k (some ({ _function := none } : defer σ)) ++
        [some { _function := some X }])[i]? = some (some g)
      ∧ g._function = if i = k then some X else none := by
  by_cases hik : i = k
  · subst hik
    exact ⟨{ _function := some X }, getElem?_replicate_append _ _ _, by simp⟩
  · have hlt : i < k := by omega
    refine ⟨{ _function := none }, ?_, by simp [hik]⟩
    rw [List.getElem?_append_left (by simpa using hlt)]
    simp [List.getElem?_replicate, hlt]

/-- C7: for a chain of move-constructions `A1 -> ... -> An` that starts from a
guard holding `X`, after the moves `An` holds `X` and every other guard of the
chain is empty; once all `n` guards have been destroyed, in any order `ds`,
`X` has been executed exactly once; and it is the destruction of `An` that
executes it: nothing has been executed before `An` is destroyed, and `X` has
been once `An` is. -/
theorem C7_move_chain_one_owner_one_execution {σ : Type} (X : Action σ)
    (rs : List (_Function_t σ)) (s0 : σ) (ds : List Nat)
    (hall : ds.Perm (List.range (rs.length + 1))) :
    Machine.run (chainOps X rs) (Machine.init s0) =
        some { guards := List.replicate rs.length (some { _function := none }) ++
                 [some { _function := some X }],
               world := { calls := [], st := s0 }, halted := false }
    ∧ (∃ m, Machine.run (chainOps X rs ++ ds.map Op.destroy) (Machine.init s0) = some m
        ∧ m.world.calls = [X.name] ∧ m.world.st = (X.body s0).val)
    ∧ (∀ pre post : List Nat, ds = pre ++ rs.length :: post →
        (∃ m1, Machine.run (chainOps X rs ++ pre.map Op.destroy) (Machine.init s0) = some m1
          ∧ m1.world.calls = [])
        ∧ (∃ m2, Machine.run (chainOps X rs ++ (pre ++ [rs.length]).map Op.destroy)
              (Machine.init s0) = some m2
          ∧ m2.world.calls = [X.name])) := by
  have hnd : ds.Nodup := hall.nodup_iff.mpr (List.nodup_range _)
  have hle : ∀ i ∈ ds, i ≤ rs.length := by
    intro i hi
    have := List.mem_range.mp (hall.mem_iff.mp hi)
    omega
  have hmem : rs.length ∈ ds := hall.mem_iff.mpr (List.mem_range.mpr (Nat.lt_succ_self _))
  have key : ∀ es : List Nat, es.Nodup → (∀ i ∈ es, i ≤ rs.length) →
      ∃ m1, Machine.run (chainOps X rs ++ es.map Op.destroy) (Machine.init s0) = some m1
        ∧ m1.world.calls = (if rs.length ∈ es then [X.name] else [])
        ∧ m1.world.st = if rs.length ∈ es then (X.body s0).val else s0 := by
    intro es hes hles
    rw [run_append _ _ _ _ (run_chainOps X rs s0)]
    obtain ⟨m1, hr, hc, hs⟩ := run_destroys X rs.length es
      { guards := List.replicate rs.length (some { _function := none }) ++
          [some { _function := some X }],
        world := { calls := [], st := s0 }, halted := false } hes rfl
      (fun i hi => chain_guard_at X rs.length i (hles i hi))
    exact ⟨m1, hr, by simpa using hc, hs⟩
  refine ⟨run_chainOps X rs s0, ?_, ?_⟩
  · obtain ⟨m, hr, hc, hs⟩ := key ds hnd hle
    exact ⟨m, hr, by simpa [hmem] using hc, by simpa [hmem] using hs⟩
  · intro pre post hsplit
    subst hsplit
    have hnd1 : (pre ++ [rs.length]).Nodup := by
      have h := hnd
      rw [show pre ++ rs.length :: post = (pre ++ [rs.length]) ++ post by simp] at h
      exact (List.nodup_append.mp h).1
    have hnotin : rs.length ∉ pre := by
      intro hin
      have h := List.nodup_append.mp hnd1
      exact h.2.2 hin (List.mem_singleton.mpr rfl)
    have hndpre : pre.Nodup := (List.nodup_append.mp hnd1).1
    constructor
    · obtain ⟨m1, hr, hc, _⟩ := key pre hndpre
        (fun i hi => hle i (List.mem_append_left _ hi))
      exact ⟨m1, hr, by simpa [hnotin] using hc⟩
    · obtain ⟨m2, hr, hc, _⟩ := key (pre ++ [rs.length]) hnd1
        (fun i hi => by
          rcases List.mem_append.mp hi with h | h
          · exact hle i (List.mem_append_left _ h)
          · simp at h; omega)
      exact ⟨m2, hr, by simpa using hc⟩

theorem C7_move_chain_one_owner_one_execution_witness :
    [1, 2, 0].Perm (List.range (([none, none] : List (_Function_t (List Nat))).length + 1))
    ∧ (∃ m, Machine.run (chainOps (appendAction 5 (1 : Nat)) [none, none] ++
          [1, 2, 0].map Op.destroy) (Machine.init []) = some m
        ∧ m.world.calls = [(appendAction 5 (1 : Nat)).name]
        ∧ m.world.st = ((appendAction 5 (1 : Nat)).body []).val) :=
  ⟨by decide,
   (C7_move_chain_one_owner_one_execution (appendAction 5 (1 : Nat)) [none, none] []
      [1, 2, 0] (by decide)).2.1⟩

/-- C8, counterexample: guard `A` holds "append 1 to log"; its action is moved
into a temporary guard that is discarded at once. The destruction of the
temporary executes the action: the log is `[1]`, not empty, and stays `[1]`
after `A` is destroyed. -/
theorem C8_move_away_cancels_counterexample :
    (Machine.run [Op.construct (Callable.lambda (appendAction 0 (1 : Nat))),
        Op.moveConstruct 0 none, Op.destroy 1] (Machine.init [])).map (fun m => m.world) =
      some { calls := [0], st := [1] }
    ∧ (Machine.run [Op.construct (Callable.lambda (appendAction 0 (1 : Nat))),
        Op.moveConstruct 0 none, Op.destroy 1, Op.destroy 0] (Machine.init [])).map
          (fun m => m.world) =
      some { calls := [0], st := [1] } := by
  constructor <;> rfl

/-- C8, amended: moving the action of a guard `A` into a guard that is
discarded at once does not cancel the action, it executes it at that point:
the move itself invokes nothing, the destruction of the discarded guard
invokes the action exactly once, and the later destruction of `A` invokes
nothing. Only the destruction of `A` is made inert by the move: as long as the
guard moved into is not destroyed, destroying `A` leaves the action
unexecuted. -/
theorem C8_move_away_runs_action_at_discard {σ : Type} (X : Action σ)
    (residue : _Function_t σ) (s0 : σ) :
    (Machine.run [Op.construct (Callable.lambda X), Op.moveConstruct 0 residue]
        (Machine.init s0)).map (fun m => m.world) = some { calls := [], st := s0 }
    ∧ (Machine.run [Op.construct (Callable.lambda X), Op.moveConstruct 0 residue,
        Op.destroy 1] (Machine.init s0)).map (fun m => m.world) =
      some { calls := [X.name], st := (X.body s0).val }
    ∧ (Machine.run [Op.construct (Callable.lambda X), Op.moveConstruct 0 residue,
        Op.destroy 1, Op.destroy 0] (Machine.init s0)).map (fun m => m.world) =
      some { calls := [X.name], st := (X.body s0).val }
    ∧ (Machine.run [Op.construct (Callable.lambda X), Op.moveConstruct 0 residue,
        Op.destroy 0] (Machine.init s0)).map (fun m => m.world) =
      some { calls := [], st := s0 } := by
  refine ⟨rfl, ?_, ?_, rfl⟩
  · simp only [Machine.run, Machine.init, Machine.step, defer.ctor, _Function_t.ofCallable,
      moveCtor_eq, Bool.false_eq_true, if_false, List.nil_append, List.getElem?_cons_zero,
      List.set_cons_zero, List.singleton_append, List.getElem?_cons_succ, dtor_holding]
    cases X.body s0 <;> rfl
  · simp only [Machine.run, Machine.init, Machine.step, defer.ctor, _Function_t.ofCallable,
      moveCtor_eq, Bool.false_eq_true, if_false, List.nil_append, List.getElem?_cons_zero,
      List.set_cons_zero, List.singleton_append, List.getElem?_cons_succ, dtor_holding]
    cases X.body s0 <;> rfl

/-- C9: destroying a guard whose slot is empty completes normally, invokes
nothing and leaves the world unchanged; the source of a move is empty
afterwards, a guard move-constructed from an empty guard is empty, and its
destruction invokes nothing either. -/
theorem C9_empty_guard_is_inert {σ : Type} (g : defer σ) (residue residue1 : _Function_t σ)
    (w : World σ) :
    defer.dtor { _function := none } w = .normal ({ _function := none }, w)
    ∧ (defer.moveCtor residue g w).2.1 = { _function := none }
    ∧ defer.moveCtor residue1 (defer.moveCtor residue g w).2.1 w =
        ({ _function := none }, { _function := none }, w)
    ∧ (∀ w1 : World σ,
        (defer.moveCtor residue1 (defer.moveCtor residue g w).2.1 w).1.dtor w1 =
          .normal ({ _function := none }, w1))
    ∧ (∀ (before after : List (Option (defer σ))) (halted : Bool),
        Machine.step
          { guards := before ++ some { _function := none } :: after, world := w,
            halted := halted } (Op.destroy before.length) =
          some { guards := before ++ none :: after, world := w, halted := halted }) := by
  refine ⟨rfl, rfl, rfl, fun w1 => rfl, ?_⟩
  intro before after halted
  have hget : ∀ (l : List (Option (defer σ))) (x : Option (defer σ)),
      (l ++ x :: after)[l.length]? = some x := by
    intro l x
    induction l with
    | nil => simp
    | cons y l ih => simpa using ih
  have hset : ∀ (l : List (Option (defer σ))) (x y : Option (defer σ)),
      (l ++ x :: after).set l.length y = l ++ y :: after := by
    intro l x y
    induction l with
    | nil => rfl
    | cons z l ih => simp [ih]
  simp only [Machine.step, hget, hset, dtor_empty]

/-! ## The macro `DEFER`: facts -/

/-- C11: `DEFER(expr)` declares a guard around `expr` captured by reference.
Nothing runs at the `DEFER` line (the world is unchanged there); at scope exit
`expr` runs once on the variables as they are at that moment, after whatever
the rest of the scope did to them, and what `expr` writes is the state the
enclosing code continues with. Example: `x = 1; DEFER(x = x * 10); x = x + 1;`
leaves `x == 20`, not the `10` a snapshot taken at the `DEFER` line would
give. -/
theorem C11_DEFER_runs_expr_by_reference_at_exit {σ : Type}
    (CONCAT : List Char → List Char → List Char) (site : UseSite) (expr : σ → Outcome σ)
    (body : List (σ → Flow × σ)) (w : World σ) :
    execStmts [(DEFER CONCAT site expr).stmt] [] w =
        some (.next, [{ _function := some (deferClosure site.line expr) }], w)
    ∧ runScope ((DEFER CONCAT site expr).stmt :: body.map Stmt.code) w =
        some (match expr (runCode body w.st).2 with
          | .normal s => .exited (runCode body w.st).1 { calls := w.calls ++ [site.line], st := s }
          | .thrown _ s => .terminated { calls := w.calls ++ [site.line], st := s }
          | .terminated s => .terminated { calls := w.calls ++ [site.line], st := s })
    ∧ (∀ (C : List Char → List Char → List Char) (column : Nat),
        runScope [(DEFER C { line := 8, column := column }
            (fun x : Nat => Outcome.normal (x * 10))).stmt,
          Stmt.code (fun x => (Flow.next, x + 1))] { calls := [], st := 1 } =
        some (.exited .next { calls := [8], st := 20 })) := by
  refine ⟨rfl, ?_, fun C column => rfl⟩
  have h : runScope ((DEFER CONCAT site expr).stmt :: body.map Stmt.code) w =
      some (unwind [{ _function := some (deferClosure site.line expr) }] (runCode body w.st).1
        { w with st := (runCode body w.st).2 }) := by
    simp [runScope, execStmts, defer.ctor, _Function_t.ofCallable, execStmts_code, DEFER,
      GuardDecl.stmt]
  rw [h, unwind_single]
  rfl

theorem map_digitChar_injective :
    ∀ l1 l2 : List Nat, (∀ d ∈ l1, d < 10) → (∀ d ∈ l2, d < 10) →
      l1.map Nat.digitChar = l2.map Nat.digitChar → l1 = l2 := by
  have hchar : ∀ d < 10, ∀ e < 10, Nat.digitChar d = Nat.digitChar e → d = e := by decide
  intro l1
  induction l1 with
  | nil =>
    intro l2 _ _ h
    cases l2 with
    | nil => rfl
    | cons e l2 => simp at h
  | cons d l1 ih =>
    intro l2 h1 h2 h
    cases l2 with
    | nil => simp at h
    | cons e l2 =>
      simp only [List.map_cons, List.cons.injEq] at h
      have hde : d = e :=
        hchar d (h1 d (List.mem_cons_self d l1)) e (h2 e (List.mem_cons_self e l2)) h.1
      have hl : l1 = l2 :=
        ih l2 (fun x hx => h1 x (List.mem_cons_of_mem d hx))
          (fun x hx => h2 x (List.mem_cons_of_mem e hx)) h.2
      rw [hde, hl]

/-- Different line numbers have different decimal spellings. -/
theorem lineToken_injective (a b : Nat) (h : lineToken a = lineToken b) : a = b := by
  have hlt : ∀ n : Nat, ∀ d ∈ (Nat.digits 10 n).reverse, d < 10 := by
    intro n d hd
    exact Nat.digits_lt_base (by norm_num) (List.mem_reverse.mp hd)
  have hrev := map_digitChar_injective _ _ (hlt a) (hlt b) h
  exact Nat.digits.injective 10 (List.reverse_injective hrev)

/-- C12, counterexample: two different uses of `DEFER` on line 8 of one scope
(columns 5 and 30, as in `DEFER(a); DEFER(b);`) get the same guard name,
whatever `CONCAT` is. -/
theorem C12_distinct_names_counterexample :
    ({ line := 8, column := 5 } : UseSite) ≠ { line := 8, column := 30 }
    ∧ (∀ (CONCAT : List Char → List Char → List Char) (e1 e2 : Nat → Outcome Nat),
        (DEFER CONCAT { line := 8, column := 5 } e1).name =
          (DEFER CONCAT { line := 8, column := 30 } e2).name) :=
  ⟨by decide, fun _ _ _ => rfl⟩

/-- C12, amended: when `CONCAT` pastes its expanded arguments, so that
different second arguments give different identifiers, two uses of `DEFER`
generate the same guard name exactly when they stand on the same source line:
uses on different lines get distinct names, uses on one line collide. -/
theorem C12_names_distinct_iff_lines_differ {σ τ : Type}
    (CONCAT : List Char → List Char → List Char)
    (hpaste : ∀ a b c : List Char, CONCAT a b = CONCAT a c → b = c)
    (s1 s2 : UseSite) (e1 : σ → Outcome σ) (e2 : τ → Outcome τ) :
    (DEFER CONCAT s1 e1).name = (DEFER CONCAT s2 e2).name ↔ s1.line = s2.line := by
  constructor
  · intro h
    exact lineToken_injective _ _ (hpaste _ _ _ h)
  · intro h
    simp only [DEFER, h]

theorem C12_names_distinct_iff_lines_differ_witness :
    (∀ a b c : List Char, (fun x y : List Char => x ++ y) a b =
        (fun x y : List Char => x ++ y) a c → b = c)
    ∧ ((DEFER (fun x y : List Char => x ++ y) { line := 8, column := 5 }
          (fun x : Nat => Outcome.normal x)).name =
        (DEFER (fun x y : List Char => x ++ y) { line := 9, column := 5 }
          (fun x : Nat => Outcome.normal x)).name ↔ (8 : Nat) = 9) :=
  ⟨fun _ _ _ h => List.append_cancel_left h,
   C12_names_distinct_iff_lines_differ (fun x y : List Char => x ++ y)
     (fun _ _ _ h => List.append_cancel_left h) { line := 8, column := 5 }
     { line := 9, column := 5 } (fun x : Nat => Outcome.normal x)
     (fun x : Nat => Outcome.normal x)⟩

/-- C13: the destructor calls the function object only after the
non-emptiness test succeeded. A guard constructed from a null function pointer
or from an empty `std::function`, and a moved-from guard, have an empty slot;
destroying a guard with an empty slot completes normally and leaves the world,
call trace included, unchanged, although calling the empty function object
would throw `bad_function_call` (and so terminate the program inside the
`noexcept` destructor). For every guard the destructor either does nothing
(empty slot) or runs the stored target: the empty call is never made. -/
theorem C13_destructor_never_calls_empty_function {σ : Type} (g : defer σ)
    (residue : _Function_t σ) (w : World σ) :
    (defer.ctor (Callable.pointer none) w).1._function = none
    ∧ (defer.ctor (Callable.function none) w).1._function = none
    ∧ (defer.moveCtor residue g w).2.1._function = none
    ∧ (∀ w1 : World σ,
        (defer.ctor (Callable.pointer none) w).1.dtor w1 = .normal ({ _function := none }, w1)
        ∧ (defer.ctor (Callable.function none) w).1.dtor w1 =
            .normal ({ _function := none }, w1)
        ∧ (defer.moveCtor residue g w).2.1.dtor w1 = .normal ({ _function := none }, w1))
    ∧ (∀ w1 : World σ,
        _Function_t.call (none : _Function_t σ) w1 = Outcome.thrown Exn.bad_function_call w1
        ∧ noexcept (_Function_t.call (none : _Function_t σ) w1) = Outcome.terminated w1)
    ∧ (∀ (g1 : defer σ) (w1 : World σ),
        g1.dtor w1 =
          match g1._function with
          | none => .normal (g1, w1)
          | some a => noexcept ((a.body w1.st).map
              (fun s => (g1, ({ calls := w1.calls ++ [a.name], st := s } : World σ))))) := by
  refine ⟨rfl, rfl, rfl, fun w1 => ⟨rfl, rfl, rfl⟩, fun w1 => ⟨rfl, rfl⟩, ?_⟩
  intro g1 w1
  rcases g1 with ⟨_ | a⟩
  · rfl
  · exact dtor_holding a w1

end XXC
